import Mathlib

/-!
Verification of the `serde-envfile` codec: a bidirectional translation between
structured values and flat `KEY=VALUE` environment-file text.

The encoder (`src/ser.rs`) is embedded faithfully below: the serde visitor
protocol is replaced by a tagged value tree `SValue`, and each serializer
method of the Rust `Serializer` becomes a Lean function over an explicit
`Serializer` state record.  Strings are embedded as `List Char` (`Str`),
matching Rust `String` as a sequence of unicode scalar values.

The decode path of the repository delegates to the external crates `dotenvy`
(line parsing) and `envy` (string-to-type coercion); those collaborators are
not part of the repository's sources and are modelled from the specification
(see the definitions marked "Modelled from the spec").
-/

/-- Strings of the Rust source are embedded as lists of characters. -/
abbrev Str := List Char

/-- ASCII uppercase of one character (model of Rust `char::to_uppercase` on
the ASCII range, which is the range exercised by the codec's keys). -/
def charUpper (c : Char) : Char :=
  if 'a' ≤ c ∧ c ≤ 'z' then Char.ofNat (c.toNat - 32) else c

/-- ASCII lowercase of one character (model of Rust `char::to_lowercase` on
the ASCII range). -/
def charLower (c : Char) : Char :=
  if 'A' ≤ c ∧ c ≤ 'Z' then Char.ofNat (c.toNat + 32) else c

/-- Model of Rust `str::to_uppercase`. -/
def upperS (s : Str) : Str := s.map charUpper

/-- Model of Rust `str::to_lowercase`. -/
def lowerS (s : Str) : Str := s.map charLower

/-- The error enumeration of `src/error.rs`. -/
inductive Error where
  | Message (msg : Str)
  | Eof
  | Syntax
  | ExpectedBoolean
  | ExpectedInteger
  | UnsupportedTupleStruct
  | UnsupportedStructureInSeq
deriving Repr, DecidableEq

/-- The serializer state of `src/ser.rs` (`struct Serializer`).  The Rust
fields `base_prefix`, `prefix` and `prefix_before` are named `basePfx`,
`pfx` and `pfxBefore` here. -/
structure Serializer where
  output : Str
  basePfx : Str
  pfx : Str
  key : Bool
  sequence : Bool
  pfxBefore : Str
deriving Repr, DecidableEq

/-- `Serializer::new` of `src/ser.rs`: the base prefix is the uppercased
optional namespace prefix, everything else starts empty/false. -/
def Serializer.init (pfxOpt : Option Str) : Serializer :=
  { output := [], basePfx := upperS (pfxOpt.getD []), pfx := [],
    key := false, sequence := false, pfxBefore := [] }

/-- `Serializer::strip_line_breaks`: the loop `while output ends_with '\n'
{ drop the last character }` removes exactly the maximal trailing run of
newlines, i.e. it drops the leading `'\n'`-run of the reversed buffer. -/
def stripLB (out : Str) : Str :=
  (out.reverse.dropWhile (fun c => c == '\n')).reverse

/-- The key-path extension step of `serialize_str` in key position: push `_`
onto a non-empty current prefix, then append the uppercased token. -/
def pfxExt (p v : Str) : Str :=
  if p.isEmpty then upperS v else p ++ '_' :: upperS v

/-- The forbidden-character scan of `serialize_str`: a fully qualified key
may not contain a space, `#`, a double quote or a single quote (code 39). -/
def keyForbidden (k : Str) : Bool :=
  k.any (fun c => c == ' ' || c == '#' || c == '"' || c.toNat == 39)

/-- `serialize_str` of `src/ser.rs`: in key position the uppercased token is
appended to the current key path, the fully qualified key is validated and
emitted; in value position a non-empty string is emitted wrapped in double
quotes and an empty string emits nothing. -/
def serStr (v : Str) (s : Serializer) : Except Error Serializer :=
  if s.key then
    let pfxNew := pfxExt s.pfx v
    let k := s.basePfx ++ pfxNew
    if keyForbidden k then .error .Syntax
    else .ok { s with pfx := pfxNew, output := s.output ++ k }
  else if v.isEmpty then .ok s
  else .ok { s with output := s.output ++ '"' :: v ++ ['"'] }

/-- `serialize_map_struct_key` of `src/ser.rs` for a string key: save the
current prefix, retract a speculative `PREFIX=` stub from the output if one
is pending, then serialize the key token with the `key` flag set. -/
def serKey (k : Str) (s : Serializer) : Except Error Serializer :=
  if s.sequence then .error .UnsupportedStructureInSeq
  else
    let s1 := { s with pfxBefore := s.pfx }
    let stub := s1.pfx ++ ['=']
    let s2 := if stub.isSuffixOf s1.output then
        { s1 with output := s1.output.take (s1.output.length - stub.length) }
      else s1
    match serStr k { s2 with key := true } with
    | .error e => .error e
    | .ok s3 => .ok { s3 with key := false }

/-- The character for a decimal digit value. -/
def digitChar (d : Nat) : Char := Char.ofNat (48 + d)

/-- Little-endian decimal digits of `n`, with an explicit fuel bound (any
fuel of at least `n` steps is exact). -/
def natReprAux : Nat → Nat → Str
  | 0, _ => []
  | fuel + 1, n => if n = 0 then [] else digitChar (n % 10) :: natReprAux fuel (n / 10)

/-- Decimal rendering of a natural number, most significant digit first
(model of the decimal text produced by Rust `u64::to_string`). -/
def natRepr (n : Nat) : Str :=
  if n = 0 then ['0'] else (natReprAux n n).reverse

/-- Model of Rust `i64::to_string`. -/
def intRepr (n : Int) : Str :=
  if n < 0 then '-' :: natRepr n.natAbs else natRepr n.toNat

mutual
/-- The value trees driven through the serde visitor protocol.  Signed
integers of every width funnel into `serialize_i64` (`vInt`), unsigned ones
into `serialize_u64` (`vNat`); `vNone` covers `serialize_none`/`serialize_unit`
(both emit nothing); `vMap` covers maps and structs (`serialize_struct`
delegates to `serialize_map`, and both field protocols call
`serialize_map_struct_key`/`serialize_map_struct_value`). -/
inductive SValue where
  | vBool (b : Bool)
  | vInt (n : Int)
  | vNat (n : Nat)
  | vStr (s : Str)
  | vNone
  | vSome (v : SValue)
  | vSeq (elems : SList)
  | vTupleStruct (elems : SList)
  | vMap (fields : SFields)
deriving Repr, DecidableEq

/-- Sequence elements. -/
inductive SList where
  | nil
  | cons (head : SValue) (tail : SList)
deriving Repr, DecidableEq

/-- Named fields of a map/struct. -/
inductive SFields where
  | nil
  | cons (name : Str) (head : SValue) (tail : SFields)
deriving Repr, DecidableEq
end

mutual
/-- The serde `Serialize`/`Serializer` double dispatch of `src/ser.rs`,
flattened into one recursive function on the value tree. -/
def serVal (v : SValue) (s : Serializer) : Except Error Serializer :=
  match v with
  | .vBool b =>
      .ok { s with output := s.output ++ (if b then "true".data else "false".data) }
  | .vInt n => .ok { s with output := s.output ++ intRepr n }
  | .vNat n => .ok { s with output := s.output ++ natRepr n }
  | .vStr str => serStr str s
  | .vNone => .ok s
  | .vSome v' => serVal v' s
  | .vSeq elems =>
      -- serialize_seq: a nested sequence is rejected; otherwise the sequence
      -- flag is set, the elements are serialized, and `SerializeSeq::end`
      -- pops one trailing character, clears the flag and strips line breaks.
      if s.sequence then .error .UnsupportedStructureInSeq
      else
        match serElems elems { s with sequence := true } with
        | .error e => .error e
        | .ok s1 => .ok { s1 with output := stripLB s1.output.dropLast, sequence := false }
  | .vTupleStruct elems =>
      -- serialize_tuple_struct delegates to serialize_seq;
      -- `SerializeTupleStruct::end` pops one character and clears the flag
      -- but does not strip line breaks.
      if s.sequence then .error .UnsupportedStructureInSeq
      else
        match serElems elems { s with sequence := true } with
        | .error e => .error e
        | .ok s1 => .ok { s1 with output := s1.output.dropLast, sequence := false }
  | .vMap fields =>
      -- serialize_map rejects a map inside a sequence; `SerializeMap::end`
      -- (= `SerializeStruct::end`) strips trailing line breaks.
      if s.sequence then .error .UnsupportedStructureInSeq
      else
        match serFields fields s with
        | .error e => .error e
        | .ok s1 => .ok { s1 with output := stripLB s1.output }
termination_by structural v

/-- `SerializeSeq::serialize_element` for each element (a `,` is appended
after every element; `end` later pops the final one). -/
def serElems (l : SList) (s : Serializer) : Except Error Serializer :=
  match l with
  | .nil => .ok s
  | .cons v rest =>
      match serVal v s with
      | .error e => .error e
      | .ok s1 => serElems rest { s1 with output := s1.output ++ [','] }
termination_by structural l

/-- The field loop of `SerializeStruct`/`SerializeMap`:
`serialize_map_struct_key` followed by `serialize_map_struct_value` (inlined:
guard against sequences, emit `=`, serialize the value, emit a newline, and
restore the prefix from `prefix_before`). -/
def serFields (fs : SFields) (s : Serializer) : Except Error Serializer :=
  match fs with
  | .nil => .ok s
  | .cons name v rest =>
      match serKey name s with
      | .error e => .error e
      | .ok s1 =>
          if s1.sequence then .error .UnsupportedStructureInSeq
          else
            match serVal v { s1 with output := s1.output ++ ['='] } with
            | .error e => .error e
            | .ok s2 =>
                serFields rest
                  { s2 with output := s2.output ++ ['\n'], pfx := s2.pfxBefore }
termination_by structural fs
end

deriving instance DecidableEq for Except

/-- `to_string_inner` of `src/ser.rs`: run the serializer from the initial
state and return the output buffer. -/
def to_string_model (pfxOpt : Option Str) (v : SValue) : Except Error Str :=
  match serVal v (Serializer.init pfxOpt) with
  | .error e => .error e
  | .ok s => .ok s.output

/-! ## The decode path

`from_str` (`src/de.rs`) feeds the text through the external `dotenvy` line
parser and hands the resulting `(key, value)` pairs to the external `envy`
coercion engine (typed path) or folds them into the `Value` map (untyped
path).  Both collaborators live outside this repository's sources and are
modelled from the specification below. -/

/-- Split a character list at every occurrence of a separator character. -/
def splitSep (sep : Char) : Str → List Str
  | [] => [[]]
  | c :: rest =>
      if c = sep then [] :: splitSep sep rest
      else
        match splitSep sep rest with
        | [] => [[c]]
        | l :: ls => (c :: l) :: ls

/-- Modelled from the spec: the external line parser (`dotenvy`) "handles
quoting ... internally" and "no escaping [is] performed", so the value of an
assignment is the raw right-hand side with the double-quote delimiters
removed. -/
def processValue (v : Str) : Str := v.filter (fun c => !(c == '"'))

/-- Modelled from the spec: one line of the external line parser's input is
`KEY=VALUE` — the key is everything before the first `=`, the value is the
remainder with quoting handled; a line without `=` is a parse failure that
`from_str` surfaces as a wrapped `Message` error. -/
def parsePair (line : Str) : Except Error (Str × Str) :=
  let k := line.takeWhile (fun c => !(c == '='))
  match line.dropWhile (fun c => !(c == '=')) with
  | [] => .error (.Message "invalid line".data)
  | _ :: v => .ok (k, processValue v)

/-- Modelled from the spec: parse every non-empty line into a pair,
propagating the first failure. -/
def parsePairs : List Str → Except Error (List (Str × Str))
  | [] => .ok []
  | l :: ls =>
      if l.isEmpty then parsePairs ls
      else
        match parsePair l with
        | .error e => .error e
        | .ok p =>
            match parsePairs ls with
            | .error e => .error e
            | .ok ps => .ok (p :: ps)

/-- Modelled from the spec: the external line parser converts raw text into
an ordered sequence of `(key, value)` string pairs, one per `KEY=VALUE`
line. -/
def parseLinesModel (input : Str) : Except Error (List (Str × Str)) :=
  parsePairs (splitSep '\n' input)

/-- Insertion into the `Value` map (`src/value.rs` stores a `String → String`
map; the `preserve_order` configuration keeps insertion order, and inserting
an existing key replaces its value in place). -/
def valueInsert (m : List (Str × Str)) (k v : Str) : List (Str × Str) :=
  if m.any (fun p => p.1 == k) then
    m.map (fun p => if p.1 == k then (k, v) else p)
  else m ++ [(k, v)]

/-- Modelled from the spec: the untyped decode path folds the parsed pairs
directly into the `Value` container "with lower-cased keys and no type
coercion". -/
def fromIterValue (pairs : List (Str × Str)) : List (Str × Str) :=
  pairs.foldl (fun m p => valueInsert m (lowerS p.1) p.2) []

/-- `from_str::<Value>` of `src/de.rs`: line-parse the input, then fold the
pairs into the untyped `Value` container. -/
def from_str_value_model (input : Str) : Except Error (List (Str × Str)) :=
  match parseLinesModel input with
  | .error e => .error e
  | .ok ps => .ok (fromIterValue ps)

/-- Modelled from the spec: decoding with a namespace prefix "must discard
any key not beginning with that prefix (case-insensitively) before handing
the remainder to the coercion engine, with the prefix segment removed from
the key". -/
def prefixStrip (pfx : Str) (pairs : List (Str × Str)) : List (Str × Str) :=
  pairs.filterMap (fun p =>
    if (upperS pfx).isPrefixOf (upperS p.1) then some (p.1.drop pfx.length, p.2)
    else none)

/-- `Prefixed::from_str::<Value>` (`src/prefixed.rs` and `from_iter_inner` of
`src/de.rs`): uppercase the prefix, keep only matching keys with the prefix
stripped, then fold into the untyped container. -/
def prefixed_from_str_value_model (pfx input : Str) : Except Error (List (Str × Str)) :=
  match parseLinesModel input with
  | .error e => .error e
  | .ok ps => .ok (fromIterValue (prefixStrip pfx ps))

/-- Field types of a flat target schema for the typed decode path. -/
inductive FType where
  | fBool | fInt | fNat | fStr | fOptStr | fSeqStr
deriving Repr, DecidableEq

/-- Field values of a flat compound: booleans, signed/unsigned integers,
strings, optional strings and string sequences. -/
inductive FVal where
  | bV (b : Bool)
  | iV (n : Int)
  | nV (n : Nat)
  | sV (s : Str)
  | oV (o : Option Str)
  | qV (l : List Str)
deriving Repr, DecidableEq

/-- Build an `SList` from a list of values. -/
def toSList : List SValue → SList
  | [] => .nil
  | v :: rest => .cons v (toSList rest)

/-- Build `SFields` from a list of named fields. -/
def toSFields : List (Str × SValue) → SFields
  | [] => .nil
  | (k, v) :: rest => .cons k v (toSFields rest)

/-- The `SValue` a field value presents to the serde serializer. -/
def toSValue : FVal → SValue
  | .bV b => .vBool b
  | .iV n => .vInt n
  | .nV n => .vNat n
  | .sV s => .vStr s
  | .oV none => .vNone
  | .oV (some s) => .vSome (.vStr s)
  | .qV l => .vSeq (toSList (l.map .vStr))

/-- The schema type of a field value. -/
def shapeOf : FVal → FType
  | .bV _ => .fBool
  | .iV _ => .fInt
  | .nV _ => .fNat
  | .sV _ => .fStr
  | .oV _ => .fOptStr
  | .qV _ => .fSeqStr

/-- Numeric value of a decimal digit character. -/
def digToNat (c : Char) : Nat := c.toNat - 48

/-- Modelled from the spec: string-to-unsigned-integer coercion (Rust
`u64::from_str`): all characters must be decimal digits and there must be at
least one. -/
def parseNat (s : Str) : Option Nat :=
  if s.isEmpty then none
  else if s.all Char.isDigit then some (s.foldl (fun a c => 10 * a + digToNat c) 0)
  else none

/-- Modelled from the spec: string-to-signed-integer coercion (Rust
`i64::from_str`): an optional leading minus sign followed by digits. -/
def parseInt (s : Str) : Option Int :=
  if s.head? = some '-' then (parseNat s.tail).map (fun m => -(m : Int))
  else (parseNat s).map (fun m => (m : Int))

/-- Modelled from the spec: the coercion engine converts the string value of
a key to the target field type — `bool` accepts exactly `true`/`false`,
integers parse decimally within the native width, strings are taken verbatim,
an optional string that is present is `Some` (even when empty), and a
sequence is the comma-split of the value. -/
def coerce (t : FType) (v : Str) : Except Error FVal :=
  match t with
  | .fBool =>
      if v = "true".data then .ok (.bV true)
      else if v = "false".data then .ok (.bV false)
      else .error (.Message "expected bool".data)
  | .fInt =>
      match parseInt v with
      | some n =>
          if -(2 ^ 63) ≤ n ∧ n < 2 ^ 63 then .ok (.iV n)
          else .error (.Message "out of range".data)
      | none => .error (.Message "expected integer".data)
  | .fNat =>
      match parseNat v with
      | some n =>
          if n < 2 ^ 64 then .ok (.nV n) else .error (.Message "out of range".data)
      | none => .error (.Message "expected integer".data)
  | .fStr => .ok (.sV v)
  | .fOptStr => .ok (.oV (some v))
  | .fSeqStr => .ok (.qV (splitSep ',' v))

/-- Modelled from the spec: the coercion engine matches each target field
name case-insensitively against the lower-cased keys; a missing key is an
error unless the field is optional (then it is `None`). -/
def decodeFields (m : List (Str × Str)) : List (Str × FType) → Except Error (List (Str × FVal))
  | [] => .ok []
  | (name, t) :: rest =>
      match m.find? (fun p => p.1 == lowerS name) with
      | none =>
          match t with
          | .fOptStr =>
              match decodeFields m rest with
              | .error e => .error e
              | .ok fs => .ok ((name, .oV none) :: fs)
          | _ => .error (.Message "missing value".data)
      | some p =>
          match coerce t p.2 with
          | .error e => .error e
          | .ok fv =>
              match decodeFields m rest with
              | .error e => .error e
              | .ok fs => .ok ((name, fv) :: fs)

/-- Modelled from the spec: the typed decode path lower-cases every key and
builds the target structure field by field. -/
def decodeTyped (shape : List (Str × FType)) (pairs : List (Str × Str)) :
    Except Error (List (Str × FVal)) :=
  decodeFields (pairs.map (fun p => (lowerS p.1, p.2))) shape

/-- `from_str::<T>` of `src/de.rs` for a flat target schema: line-parse the
input, then run the coercion engine. -/
def from_str_typed_model (shape : List (Str × FType)) (input : Str) :
    Except Error (List (Str × FVal)) :=
  match parseLinesModel input with
  | .error e => .error e
  | .ok ps => decodeTyped shape ps

/-- The exact text a scalar field value contributes as the right-hand side of
its assignment (read off the scalar branches of the serializer). -/
def scalarText : FVal → Str
  | .bV true => "true".data
  | .bV false => "false".data
  | .iV n => intRepr n
  | .nV n => natRepr n
  | .sV s => if s.isEmpty then [] else '"' :: s ++ ['"']
  | .oV none => []
  | .oV (some s) => if s.isEmpty then [] else '"' :: s ++ ['"']
  | .qV _ => []

/-- Field values that serialize through a scalar (non-sequence) path. -/
def isFlatVal : FVal → Prop
  | .qV _ => False
  | _ => True

instance : DecidablePred isFlatVal := fun v => by
  unfold isFlatVal; cases v <;> infer_instance

/-- The lossless scalars of the round-trip claim: booleans, signed/unsigned
integers across the native 64-bit width, and non-empty strings without
internal double quotes (and without line breaks, which the line-oriented
format cannot carry). -/
def scalarOK : FVal → Prop
  | .bV _ => True
  | .iV n => -(2 ^ 63) ≤ n ∧ n < 2 ^ 63
  | .nV n => n < 2 ^ 64
  | .sV s => ¬s.isEmpty ∧ ∀ c ∈ s, c ≠ '"' ∧ c ≠ '\n'
  | .oV _ => False
  | .qV _ => False

instance : DecidablePred scalarOK := fun v => by
  unfold scalarOK; cases v <;> infer_instance

/-- Characters admissible in a field name: ASCII letters, digits and
underscore. -/
def isNameChar (c : Char) : Prop :=
  (97 ≤ c.toNat ∧ c.toNat ≤ 122) ∨ (65 ≤ c.toNat ∧ c.toNat ≤ 90) ∨
    (48 ≤ c.toNat ∧ c.toNat ≤ 57) ∨ c.toNat = 95

instance : DecidablePred isNameChar := fun _ => by unfold isNameChar; infer_instance

/-- A well-formed field name: non-empty and made of name characters. -/
def goodName (k : Str) : Prop := k ≠ [] ∧ ∀ c ∈ k, isNameChar c

instance : DecidablePred goodName := fun _ => by unfold goodName; infer_instance

/-- A sequence element that triggers the structure-in-sequence rejection:
a nested sequence, a tuple struct (which enters `serialize_seq`), or a
map/struct, possibly wrapped in `Some`. -/
def seqStructural : SValue → Bool
  | .vSeq _ => true
  | .vTupleStruct _ => true
  | .vMap _ => true
  | .vSome v => seqStructural v
  | _ => false

/-- Whether some element of a sequence is structural. -/
def anyStructural : SList → Bool
  | .nil => false
  | .cons v rest => seqStructural v || anyStructural rest

/-- One output line for a `(fully-qualified-key, value-text)` row. -/
def lineRow (r : Str × Str) : Str := r.1 ++ '=' :: (r.2 ++ ['\n'])

/-- The rows a flat compound contributes under base prefix `b`. -/
def rowsOf (b : Str) (fs : List (Str × FVal)) : List (Str × Str) :=
  fs.map (fun f => (b ++ upperS f.1, scalarText f.2))

/-- Newline-join a list of lines (no trailing newline). -/
def joinNL : List Str → Str
  | [] => []
  | [l] => l
  | l :: l' :: ls => l ++ '\n' :: joinNL (l' :: ls)

/-! ## Character-level lemmas -/

theorem charExt (a b : Char) (h : a.toNat = b.toNat) : a = b := by
  apply Char.ext
  exact UInt32.toNat.inj h

theorem toNat_ofNat_valid (n : Nat) (h : n < 55296) : (Char.ofNat n).toNat = n := by
  simp only [Char.ofNat, Nat.isValidChar]
  rw [dif_pos (Or.inl h)]
  simp [Char.ofNatAux, Char.toNat, UInt32.toNat, UInt32.ofNat', BitVec.toNat_ofNat]

theorem char_le_iff (a b : Char) : (a ≤ b) ↔ (a.toNat ≤ b.toNat) := Iff.rfl

theorem charUpper_toNat (c : Char) :
    (charUpper c).toNat = if 97 ≤ c.toNat ∧ c.toNat ≤ 122 then c.toNat - 32 else c.toNat := by
  have hiff : ('a' ≤ c ∧ c ≤ 'z') ↔ (97 ≤ c.toNat ∧ c.toNat ≤ 122) := Iff.rfl
  unfold charUpper
  by_cases h : 97 ≤ c.toNat ∧ c.toNat ≤ 122
  · rw [if_pos (hiff.mpr h), if_pos h, toNat_ofNat_valid]
    omega
  · rw [if_neg (fun hh => h (hiff.mp hh)), if_neg h]

theorem charLower_toNat (c : Char) :
    (charLower c).toNat = if 65 ≤ c.toNat ∧ c.toNat ≤ 90 then c.toNat + 32 else c.toNat := by
  have hiff : ('A' ≤ c ∧ c ≤ 'Z') ↔ (65 ≤ c.toNat ∧ c.toNat ≤ 90) := Iff.rfl
  unfold charLower
  by_cases h : 65 ≤ c.toNat ∧ c.toNat ≤ 90
  · rw [if_pos (hiff.mpr h), if_pos h, toNat_ofNat_valid]
    omega
  · rw [if_neg (fun hh => h (hiff.mp hh)), if_neg h]

theorem charLower_charUpper (c : Char) : charLower (charUpper c) = charLower c := by
  apply charExt
  simp only [charLower_toNat, charUpper_toNat]
  split_ifs <;> omega

theorem charUpper_charUpper (c : Char) : charUpper (charUpper c) = charUpper c := by
  apply charExt
  simp only [charUpper_toNat]
  split_ifs <;> omega

theorem charLower_charLower (c : Char) : charLower (charLower c) = charLower c := by
  apply charExt
  simp only [charLower_toNat]
  split_ifs <;> omega

theorem char_ne_iff (a b : Char) : a ≠ b ↔ a.toNat ≠ b.toNat :=
  ⟨fun h hn => h (charExt a b hn), fun h he => h (he ▸ rfl)⟩

theorem charUpper_ne_of (c : Char) (k : Nat) (hk : k < 65 ∨ 90 < k)
    (h : c.toNat ≠ k) : (charUpper c).toNat ≠ k := by
  rw [charUpper_toNat]
  split_ifs with h' <;> omega

theorem charLower_ne_of (c : Char) (k : Nat) (hk : k < 97 ∨ 122 < k)
    (h : c.toNat ≠ k) : (charLower c).toNat ≠ k := by
  rw [charLower_toNat]
  split_ifs with h' <;> omega

theorem nameChar_upper (c : Char) (h : isNameChar c) : isNameChar (charUpper c) := by
  unfold isNameChar at h ⊢
  rw [charUpper_toNat]
  split_ifs <;> omega

theorem nameChar_not_special (c : Char) (h : isNameChar c) :
    c.toNat ≠ 32 ∧ c.toNat ≠ 34 ∧ c.toNat ≠ 35 ∧ c.toNat ≠ 39 ∧
      c.toNat ≠ 10 ∧ c.toNat ≠ 61 := by
  unfold isNameChar at h
  omega

theorem lowerS_upperS (s : Str) : lowerS (upperS s) = lowerS s := by
  simp [lowerS, upperS, List.map_map, Function.comp, charLower_charUpper]

theorem upperS_upperS (s : Str) : upperS (upperS s) = upperS s := by
  simp [upperS, List.map_map, Function.comp, charUpper_charUpper]

theorem lowerS_lowerS (s : Str) : lowerS (lowerS s) = lowerS s := by
  simp [lowerS, List.map_map, Function.comp, charLower_charLower]

/-! ## Output-buffer lemmas -/

theorem stripLB_nil : stripLB [] = [] := rfl

theorem stripLB_append_nl (t : Str) : stripLB (t ++ ['\n']) = stripLB t := by
  simp [stripLB, List.reverse_append]

theorem stripLB_eq_self (t : Str) (h : t.getLast? ≠ some '\n') : stripLB t = t := by
  induction t using List.reverseRecOn with
  | nil => rfl
  | append_singleton xs x _ =>
      rw [List.getLast?_concat] at h
      have hx : x ≠ '\n' := fun he => h (by rw [he])
      simp [stripLB, List.reverse_append, List.dropWhile_cons, hx]

theorem not_suffix_singleton (c : Char) (out : Str) (h : out.getLast? ≠ some c) :
    ([c].isSuffixOf out) = false := by
  by_contra hc
  have hs : [c] <:+ out := List.isSuffixOf_iff_suffix.mp (by
    cases hb : [c].isSuffixOf out
    · exact absurd hb hc
    · rfl)
  obtain ⟨t, ht⟩ := hs
  rw [← ht, List.getLast?_concat] at h
  exact h rfl

/-! ## Serializer-step lemmas -/

theorem serStr_key (v : Str) (s : Serializer) (hk : s.key = true) :
    serStr v s =
      if keyForbidden (s.basePfx ++ pfxExt s.pfx v) then .error .Syntax
      else .ok { s with pfx := pfxExt s.pfx v,
                        output := s.output ++ (s.basePfx ++ pfxExt s.pfx v) } := by
  rw [serStr, if_pos hk]

theorem serStr_val (v : Str) (s : Serializer) (hk : s.key = false) :
    serStr v s = .ok { s with output :=
        s.output ++ (if v.isEmpty then [] else '"' :: v ++ ['"']) } := by
  rw [serStr, if_neg (by rw [hk]; exact Bool.false_ne_true)]
  split_ifs with hv
  · simp
  · simp

theorem serKey_flat (k : Str) (s : Serializer)
    (hq : s.sequence = false) (hp : s.pfx = [])
    (hout : s.output.getLast? ≠ some '=') :
    serKey k s =
      if keyForbidden (s.basePfx ++ upperS k) then .error .Syntax
      else .ok { s with pfx := upperS k, pfxBefore := [], key := false,
                        output := s.output ++ (s.basePfx ++ upperS k) } := by
  rw [serKey, if_neg (by rw [hq]; exact Bool.false_ne_true)]
  simp only [hp, List.nil_append]
  rw [not_suffix_singleton '=' s.output hout]
  simp only [Bool.false_eq_true, if_false]
  rw [serStr_key _ _ rfl]
  have hpe : pfxExt ([] : Str) k = upperS k := by simp [pfxExt]
  simp only [hpe]
  split_ifs with h
  · rfl
  · rfl

theorem serVal_scalar (v : FVal) (hv : isFlatVal v) (s : Serializer) (hk : s.key = false) :
    serVal (toSValue v) s = .ok { s with output := s.output ++ scalarText v } := by
  cases v with
  | bV b => cases b <;> simp [toSValue, serVal, scalarText]
  | iV n => simp [toSValue, serVal, scalarText]
  | nV n => simp [toSValue, serVal, scalarText]
  | sV str =>
      simp only [toSValue, serVal, scalarText]
      rw [serStr_val str s hk]
  | oV o =>
      cases o with
      | none => simp [toSValue, serVal, scalarText]
      | some str =>
          simp only [toSValue, serVal, scalarText]
          rw [serStr_val str s hk]
  | qV l => exact absurd hv (by simp [isFlatVal])

theorem serFields_flat (b : Str) (fs : List (Str × FVal)) (s : Serializer)
    (hk : s.key = false) (hq : s.sequence = false) (hp : s.pfx = [])
    (hb : s.basePfx = b)
    (hout : s.output.getLast? ≠ some '=')
    (hnames : ∀ f ∈ fs, keyForbidden (b ++ upperS f.1) = false)
    (hv : ∀ f ∈ fs, isFlatVal f.2) :
    ∃ pb, serFields (toSFields (fs.map (fun f => (f.1, toSValue f.2)))) s
      = .ok { output := s.output ++ ((rowsOf b fs).map lineRow).flatten,
              basePfx := b, pfx := [], key := false, sequence := false,
              pfxBefore := pb } := by
  induction fs generalizing s with
  | nil =>
      refine ⟨s.pfxBefore, ?_⟩
      obtain ⟨o, bp, p, k, q, pb⟩ := s
      simp only at hk hq hp hb
      subst hk hq hp hb
      simp [toSFields, serFields, rowsOf]
  | cons f fs' ih =>
      have hkf : keyForbidden (b ++ upperS f.1) = false := hnames f (List.mem_cons_self f fs')
      have hvf : isFlatVal f.2 := hv f (List.mem_cons_self f fs')
      simp only [List.map_cons, toSFields]
      rw [serFields]
      have hsk := serKey_flat f.1 s hq hp hout
      rw [hb, hkf] at hsk
      simp only [Bool.false_eq_true, if_false] at hsk
      rw [hsk]
      simp only [hq, Bool.false_eq_true, if_false]
      rw [serVal_scalar f.2 hvf _ rfl]
      simp only []
      have ihr := ih { output := ((s.output ++ (b ++ upperS f.1)) ++ ['=']) ++ scalarText f.2 ++ ['\n'],
                       basePfx := b, pfx := [], key := false, sequence := false,
                       pfxBefore := [] }
        rfl rfl rfl rfl (by rw [List.getLast?_concat]; intro hc; exact absurd (Option.some.inj hc) (by decide))
        (fun g hg => hnames g (List.mem_cons_of_mem f hg))
        (fun g hg => hv g (List.mem_cons_of_mem f hg))
      obtain ⟨pb, hpb⟩ := ihr
      refine ⟨pb, ?_⟩
      rw [hpb]
      simp [rowsOf, lineRow, List.append_assoc]

theorem to_string_flat (pfxOpt : Option Str) (fs : List (Str × FVal))
    (hnames : ∀ f ∈ fs, keyForbidden (upperS (pfxOpt.getD []) ++ upperS f.1) = false)
    (hv : ∀ f ∈ fs, isFlatVal f.2) :
    to_string_model pfxOpt (.vMap (toSFields (fs.map (fun f => (f.1, toSValue f.2)))))
      = .ok (stripLB (((rowsOf (upperS (pfxOpt.getD [])) fs).map lineRow).flatten)) := by
  unfold to_string_model
  rw [serVal]
  simp only [Serializer.init, Bool.false_eq_true, if_false]
  obtain ⟨pb, hpb⟩ := serFields_flat (upperS (pfxOpt.getD [])) fs
    { output := [], basePfx := upperS (pfxOpt.getD []), pfx := [],
      key := false, sequence := false, pfxBefore := [] }
    rfl rfl rfl rfl (by simp) hnames hv
  rw [hpb]
  simp

/-! ## Line-parser lemmas -/

theorem splitSep_no_sep (sep : Char) (l : Str) (h : ∀ c ∈ l, c ≠ sep) :
    splitSep sep l = [l] := by
  induction l with
  | nil => rfl
  | cons c rest ih =>
      have hc : c ≠ sep := h c (List.mem_cons_self c rest)
      rw [splitSep, if_neg hc, ih (fun d hd => h d (List.mem_cons_of_mem c hd))]

theorem splitSep_append (sep : Char) (l rest : Str) (h : ∀ c ∈ l, c ≠ sep) :
    splitSep sep (l ++ sep :: rest) = l :: splitSep sep rest := by
  induction l with
  | nil => simp [splitSep]
  | cons c l' ih =>
      have hc : c ≠ sep := h c (List.mem_cons_self c l')
      rw [List.cons_append, splitSep, if_neg hc,
        ih (fun d hd => h d (List.mem_cons_of_mem c hd))]

theorem joinNL_ne_nil (l : Str) (ls : List Str) (hl : l ≠ []) :
    joinNL (l :: ls) ≠ [] := by
  cases ls with
  | nil => simpa [joinNL] using hl
  | cons l' ls' => simp [joinNL]

theorem joinNL_getLast_ne (L : List Str) (hL : L ≠ [])
    (h : ∀ l ∈ L, l ≠ [] ∧ l.getLast? ≠ some '\n') :
    (joinNL L).getLast? ≠ some '\n' := by
  induction L with
  | nil => exact absurd rfl hL
  | cons l ls ih =>
      cases ls with
      | nil => simpa [joinNL] using (h l (List.mem_cons_self l [])).2
      | cons l' ls' =>
          have hne := joinNL_ne_nil l' ls' (h l' (by simp)).1
          rw [joinNL, List.getLast?_append]
          have : ('\n' :: joinNL (l' :: ls')).getLast? = (joinNL (l' :: ls')).getLast? := by
            cases hj : joinNL (l' :: ls') with
            | nil => exact absurd hj hne
            | cons x xs => simp
          rw [this]
          have hrec := ih (by simp) (fun g hg => h g (List.mem_cons_of_mem l hg))
          cases hj : (joinNL (l' :: ls')).getLast? with
          | none => exact absurd (List.getLast?_eq_none_iff.mp hj) hne
          | some x =>
              rw [hj] at hrec
              simpa using hrec

theorem flatten_lineRows (rows : List (Str × Str)) (hne : rows ≠ []) :
    (rows.map lineRow).flatten
      = joinNL (rows.map (fun r => r.1 ++ '=' :: r.2)) ++ ['\n'] := by
  induction rows with
  | nil => exact absurd rfl hne
  | cons r rs ih =>
      cases rs with
      | nil => simp [lineRow, joinNL]
      | cons r' rs' =>
          rw [List.map_cons, List.flatten_cons, ih (by simp)]
          simp [lineRow, joinNL]

theorem body_ne_nil (k v : Str) : k ++ '=' :: v ≠ [] := by
  simp

theorem body_getLast_ne (k v : Str) (hv : '\n' ∉ v) :
    (k ++ '=' :: v).getLast? ≠ some '\n' := by
  rw [List.getLast?_append]
  induction v using List.reverseRecOn with
  | nil => simp
  | append_singleton xs x _ =>
      have hx : x ≠ '\n' := by
        intro he; exact hv (by rw [← he] at *; simp)
      rw [← List.cons_append, List.getLast?_concat]
      simpa using hx

theorem splitSep_joinNL (L : List Str) (h : ∀ l ∈ L, '\n' ∉ l) (hne : L ≠ []) :
    splitSep '\n' (joinNL L) = L := by
  induction L with
  | nil => exact absurd rfl hne
  | cons l ls ih =>
      cases ls with
      | nil =>
          rw [joinNL]
          exact splitSep_no_sep '\n' l
            (fun c hc he => h l (by simp) (he ▸ hc))
      | cons l' ls' =>
          rw [joinNL, splitSep_append '\n' l _
            (fun c hc he => h l (by simp) (he ▸ hc))]
          rw [ih (fun g hg => h g (List.mem_cons_of_mem l hg)) (by simp)]

theorem takeWhile_body (k v : Str) (hk : '=' ∉ k) :
    (k ++ '=' :: v).takeWhile (fun c => !(c == '=')) = k := by
  induction k with
  | nil => simp [List.takeWhile_cons]
  | cons c k' ih =>
      have hc : c ≠ '=' := fun he => hk (he ▸ List.mem_cons_self c k')
      rw [List.cons_append, List.takeWhile_cons]
      simp only [hc, bne_iff_ne, ne_eq, not_false_eq_true, Bool.not_eq_true']
      rw [ih (fun hm => hk (List.mem_cons_of_mem c hm))]
      simp [hc]

theorem dropWhile_body (k v : Str) (hk : '=' ∉ k) :
    (k ++ '=' :: v).dropWhile (fun c => !(c == '=')) = '=' :: v := by
  induction k with
  | nil => simp [List.dropWhile_cons]
  | cons c k' ih =>
      have hc : c ≠ '=' := fun he => hk (he ▸ List.mem_cons_self c k')
      rw [List.cons_append, List.dropWhile_cons]
      rw [ih (fun hm => hk (List.mem_cons_of_mem c hm))]
      simp [hc]

theorem parsePair_body (k v : Str) (hk : '=' ∉ k) :
    parsePair (k ++ '=' :: v) = .ok (k, processValue v) := by
  rw [parsePair]
  simp only [takeWhile_body k v hk, dropWhile_body k v hk]

theorem parsePairs_bodies (rows : List (Str × Str)) (hk : ∀ r ∈ rows, '=' ∉ r.1) :
    parsePairs (rows.map (fun r => r.1 ++ '=' :: r.2))
      = .ok (rows.map (fun r => (r.1, processValue r.2))) := by
  induction rows with
  | nil => rfl
  | cons r rs ih =>
      rw [List.map_cons, parsePairs]
      have hne : (r.1 ++ '=' :: r.2).isEmpty = false := by
        cases h : r.1 ++ '=' :: r.2 with
        | nil => exact absurd h (body_ne_nil r.1 r.2)
        | cons x xs => rfl
      rw [hne]
      simp only [Bool.false_eq_true, if_false]
      rw [parsePair_body r.1 r.2 (hk r (List.mem_cons_self r rs))]
      rw [ih (fun g hg => hk g (List.mem_cons_of_mem r hg))]
      simp

theorem parse_of_rows (rows : List (Str × Str))
    (hkeys : ∀ r ∈ rows, '=' ∉ r.1 ∧ '\n' ∉ r.1)
    (hvals : ∀ r ∈ rows, '\n' ∉ r.2) :
    parseLinesModel (stripLB ((rows.map lineRow).flatten))
      = .ok (rows.map (fun r => (r.1, processValue r.2))) := by
  have hbodyNL : ∀ l ∈ rows.map (fun r => r.1 ++ '=' :: r.2), '\n' ∉ l := by
    intro l hl hmem
    obtain ⟨g, hg, rfl⟩ := List.mem_map.mp hl
    rcases List.mem_append.mp hmem with h1 | h2
    · exact (hkeys g hg).2 h1
    · rcases List.mem_cons.mp h2 with he | h3
      · exact absurd he (by decide)
      · exact hvals g hg h3
  cases rows with
  | nil => rfl
  | cons r rs =>
      rw [flatten_lineRows _ (by simp), stripLB_append_nl,
        stripLB_eq_self _ (joinNL_getLast_ne _ (by simp) ?_)]
      · unfold parseLinesModel
        rw [splitSep_joinNL _ hbodyNL (by simp)]
        exact parsePairs_bodies _ (fun g hg => (hkeys g hg).1)
      · intro l hl
        obtain ⟨g, _, rfl⟩ := List.mem_map.mp hl
        refine ⟨body_ne_nil g.1 g.2, body_getLast_ne g.1 g.2 ?_⟩
        intro hmem
        exact hbodyNL _ hl (by simp [hmem])

/-! ## Decimal round-trip lemmas -/

theorem digToNat_digitChar (d : Nat) (h : d < 10) : digToNat (digitChar d) = d := by
  unfold digToNat digitChar
  rw [toNat_ofNat_valid _ (by omega)]
  omega

theorem isDigit_toNat (c : Char) (h : c.isDigit = true) :
    48 ≤ c.toNat ∧ c.toNat ≤ 57 := by
  unfold Char.isDigit at h
  rw [Bool.and_eq_true, decide_eq_true_iff, decide_eq_true_iff] at h
  exact ⟨h.1, h.2⟩

theorem isDigit_digitChar (d : Nat) (h : d < 10) : (digitChar d).isDigit = true := by
  have h1 : (digitChar d).toNat = 48 + d := toNat_ofNat_valid _ (by omega)
  unfold Char.isDigit
  rw [Bool.and_eq_true, decide_eq_true_iff, decide_eq_true_iff]
  constructor
  · show (48 : Nat) ≤ (digitChar d).toNat
    omega
  · show (digitChar d).toNat ≤ (57 : Nat)
    omega

theorem natReprAux_all_digits (fuel : Nat) :
    ∀ n, (natReprAux fuel n).all Char.isDigit = true := by
  induction fuel with
  | zero => intro n; rfl
  | succ f ih =>
      intro n
      rw [natReprAux]
      split_ifs with h
      · rfl
      · rw [List.all_cons, ih (n / 10), isDigit_digitChar (n % 10) (by omega)]
        rfl

theorem natReprAux_foldl (fuel : Nat) :
    ∀ n a, n ≤ fuel →
      (natReprAux fuel n).reverse.foldl (fun a c => 10 * a + digToNat c) a
        = a * 10 ^ (natReprAux fuel n).length + n := by
  induction fuel with
  | zero =>
      intro n a h
      have : n = 0 := by omega
      subst this
      simp [natReprAux]
  | succ f ih =>
      intro n a h
      rw [natReprAux]
      split_ifs with h0
      · subst h0; simp
      · have hdiv : n / 10 ≤ f := by omega
        rw [List.reverse_cons, List.foldl_append, ih (n / 10) a hdiv]
        simp only [List.foldl_cons, List.foldl_nil, List.length_cons]
        rw [digToNat_digitChar (n % 10) (by omega)]
        rw [pow_succ, ← mul_assoc]
        set q := a * 10 ^ (natReprAux f (n / 10)).length
        omega

theorem natRepr_ne_nil (n : Nat) : natRepr n ≠ [] := by
  unfold natRepr
  split_ifs with h
  · simp
  · obtain ⟨m, rfl⟩ : ∃ m, n = m + 1 := ⟨n - 1, by omega⟩
    rw [natReprAux]
    simp [h]

theorem natRepr_all_digits (n : Nat) : (natRepr n).all Char.isDigit = true := by
  unfold natRepr
  split_ifs with h
  · decide
  · rw [List.all_reverse]
    exact natReprAux_all_digits n n

theorem parseNat_natRepr (n : Nat) : parseNat (natRepr n) = some n := by
  by_cases h0 : n = 0
  · subst h0; decide
  · have hne := natRepr_ne_nil n
    unfold parseNat
    split_ifs with h1 h2
    · exact absurd (by simpa using h1) hne
    · rw [natRepr, if_neg h0] at *
      rw [natReprAux_foldl n n 0 le_rfl]
      simp
    · exact absurd (natRepr_all_digits n) (by simpa using h2)

theorem parseInt_intRepr (n : Int) : parseInt (intRepr n) = some n := by
  by_cases hn : n < 0
  · rw [intRepr, if_pos hn]
    unfold parseInt
    simp only [List.head?_cons, List.tail_cons, if_pos rfl]
    rw [parseNat_natRepr]
    show some (-((n.natAbs : Int))) = some n
    exact congrArg some (by omega)
  · rw [intRepr, if_neg hn]
    cases hl : natRepr n.toNat with
    | nil => exact absurd hl (natRepr_ne_nil n.toNat)
    | cons c rest =>
        have hdig : c.isDigit = true := by
          have := natRepr_all_digits n.toNat
          rw [hl, List.all_cons, Bool.and_eq_true] at this
          exact this.1
        have hcne : c ≠ '-' := by
          intro he
          have := isDigit_toNat c hdig
          rw [he] at this
          exact absurd this (by decide)
        unfold parseInt
        rw [List.head?_cons, if_neg (by simpa using hcne), ← hl, parseNat_natRepr]
        show some ((n.toNat : Int)) = some n
        exact congrArg some (by omega)

/-! ## Coercion-engine lemmas -/

theorem natRepr_mem_digit (n : Nat) (c : Char) (hc : c ∈ natRepr n) :
    c.isDigit = true := by
  have h := natRepr_all_digits n
  rw [List.all_eq_true] at h
  exact h c hc

theorem processValue_eq_self (v : Str) (h : ∀ c ∈ v, c ≠ '"') :
    processValue v = v := by
  unfold processValue
  rw [List.filter_eq_self]
  intro c hc
  simpa using h c hc

theorem processValue_natRepr (n : Nat) : processValue (natRepr n) = natRepr n := by
  refine processValue_eq_self _ (fun c hc he => ?_)
  have := isDigit_toNat c (natRepr_mem_digit n c hc)
  rw [he] at this
  exact absurd this (by decide)

theorem processValue_intRepr (n : Int) : processValue (intRepr n) = intRepr n := by
  unfold intRepr
  split_ifs with hn
  · refine processValue_eq_self _ (fun c hc he => ?_)
    rcases List.mem_cons.mp hc with h1 | h2
    · rw [he] at h1; exact absurd h1 (by decide)
    · have := isDigit_toNat c (natRepr_mem_digit n.natAbs c h2)
      rw [he] at this
      exact absurd this (by decide)
  · exact processValue_natRepr n.toNat

theorem scalarText_no_nl (v : FVal) (h : scalarOK v) :
    ∀ c ∈ scalarText v, c ≠ '\n' := by
  intro c hc
  cases v with
  | bV b =>
      intro he
      subst he
      cases b <;> revert hc <;> decide
  | iV n =>
      rw [scalarText] at hc
      intro he
      rw [intRepr] at hc
      split_ifs at hc with hn
      · rcases List.mem_cons.mp hc with h1 | h2
        · rw [he] at h1; exact absurd h1 (by decide)
        · have := isDigit_toNat c (natRepr_mem_digit n.natAbs c h2)
          rw [he] at this; exact absurd this (by decide)
      · have := isDigit_toNat c (natRepr_mem_digit n.toNat c hc)
        rw [he] at this; exact absurd this (by decide)
  | nV n =>
      rw [scalarText] at hc
      intro he
      have := isDigit_toNat c (natRepr_mem_digit n c hc)
      rw [he] at this; exact absurd this (by decide)
  | sV s =>
      obtain ⟨hne, hs⟩ := h
      rw [scalarText, if_neg (by simpa using hne)] at hc
      rcases List.mem_cons.mp hc with h1 | h2
      · rw [h1]; decide
      · rcases List.mem_append.mp h2 with h3 | h4
        · exact (hs c h3).2
        · rw [List.mem_singleton.mp h4]; decide
  | oV o => exact absurd h (by cases o <;> simp [scalarOK])
  | qV l => exact absurd h (by simp [scalarOK])

theorem coerce_scalar (v : FVal) (h : scalarOK v) :
    coerce (shapeOf v) (processValue (scalarText v)) = .ok v := by
  cases v with
  | bV b => cases b <;> decide
  | iV n =>
      have h' : -(2 ^ 63 : Int) ≤ n ∧ n < 2 ^ 63 := h
      rw [shapeOf, scalarText, processValue_intRepr]
      simp only [coerce, parseInt_intRepr]
      rw [if_pos h']
  | nV n =>
      have h' : n < 2 ^ 64 := h
      rw [shapeOf, scalarText, processValue_natRepr]
      simp only [coerce, parseNat_natRepr]
      rw [if_pos h']
  | sV s =>
      obtain ⟨hne, hs⟩ := h
      rw [shapeOf, scalarText, if_neg (by simpa using hne)]
      have hpv : processValue ('"' :: s ++ ['"']) = s := by
        unfold processValue
        rw [List.filter_append, List.filter_cons]
        simp only [beq_self_eq_true, Bool.not_true, Bool.false_eq_true, if_false]
        rw [List.filter_eq_self.mpr (fun c hc => by simpa using (hs c hc).1)]
        simp
      rw [hpv, coerce]
  | oV o => exact absurd h (by cases o <;> simp [scalarOK])
  | qV l => exact absurd h (by simp [scalarOK])

theorem find?_flat (fs : List (Str × FVal)) (f : Str × FVal) (T : Str × FVal → Str)
    (hmem : f ∈ fs) (hnd : (fs.map (fun g => lowerS g.1)).Nodup) :
    (fs.map (fun g => (lowerS g.1, T g))).find? (fun p => p.1 == lowerS f.1)
      = some (lowerS f.1, T f) := by
  induction fs with
  | nil => exact absurd hmem (List.not_mem_nil f)
  | cons g gs ih =>
      rw [List.map_cons, List.find?_cons]
      rw [List.map_cons, List.nodup_cons] at hnd
      by_cases hbeq : lowerS g.1 = lowerS f.1
      · have hfg : f = g := by
          rcases List.mem_cons.mp hmem with h1 | h2
          · exact h1
          · exact absurd (hbeq ▸ List.mem_map_of_mem (fun x => lowerS x.1) h2) hnd.1
        subst hfg
        simp
      · have hb : ((lowerS g.1, T g).1 == lowerS f.1) = false := by
          simpa using hbeq
        simp only [hb]
        have hf2 : f ∈ gs := by
          rcases List.mem_cons.mp hmem with h1 | h2
          · exact absurd (by rw [h1]) hbeq
          · exact h2
        exact ih hf2 hnd.2

theorem decodeFields_flat (all : List (Str × FVal)) (sub : List (Str × FVal))
    (hsub : ∀ f ∈ sub, f ∈ all)
    (hnd : (all.map (fun f => lowerS f.1)).Nodup)
    (hok : ∀ f ∈ all, scalarOK f.2) :
    decodeFields (all.map (fun f => (lowerS f.1, processValue (scalarText f.2))))
        (sub.map (fun f => (f.1, shapeOf f.2)))
      = .ok sub := by
  induction sub with
  | nil => rfl
  | cons f sub' ih =>
      have hfind := find?_flat all f (fun g => processValue (scalarText g.2))
        (hsub f (List.mem_cons_self f sub')) hnd
      have hco := coerce_scalar f.2 (hok f (hsub f (List.mem_cons_self f sub')))
      have hrec := ih (fun g hg => hsub g (List.mem_cons_of_mem f hg))
      simp only [List.map_cons, decodeFields, hfind, hco, hrec]

/-! ## Key-validity glue lemmas -/

theorem keyForbidden_eq_false (k : Str)
    (h : ∀ c ∈ k, c.toNat ≠ 32 ∧ c.toNat ≠ 34 ∧ c.toNat ≠ 35 ∧ c.toNat ≠ 39) :
    keyForbidden k = false := by
  unfold keyForbidden
  rw [List.any_eq_false]
  intro c hc
  obtain ⟨h1, h2, h3, h4⟩ := h c hc
  have e1 : (c == ' ') = false := by
    rw [beq_eq_false_iff_ne]; exact (char_ne_iff c ' ').mpr h1
  have e2 : (c == '#') = false := by
    rw [beq_eq_false_iff_ne]; exact (char_ne_iff c '#').mpr h3
  have e3 : (c == '"') = false := by
    rw [beq_eq_false_iff_ne]; exact (char_ne_iff c '"').mpr h2
  have e4 : (c.toNat == 39) = false := by simpa using h4
  rw [e1, e2, e3, e4]
  simp

theorem keyForbidden_upper_name (k : Str) (h : ∀ c ∈ k, isNameChar c) :
    keyForbidden (upperS k) = false := by
  apply keyForbidden_eq_false
  intro c hc
  obtain ⟨c0, hc0, rfl⟩ := List.mem_map.mp hc
  have hn := nameChar_not_special _ (nameChar_upper c0 (h c0 hc0))
  exact ⟨hn.1, hn.2.1, hn.2.2.1, hn.2.2.2.1⟩

theorem upper_name_no_eq (k : Str) (h : ∀ c ∈ k, isNameChar c) : '=' ∉ upperS k := by
  intro hmem
  obtain ⟨c0, hc0, he⟩ := List.mem_map.mp hmem
  have hn := nameChar_not_special _ (nameChar_upper c0 (h c0 hc0))
  exact hn.2.2.2.2.2 (by rw [he]; decide)

theorem upper_name_no_nl (k : Str) (h : ∀ c ∈ k, isNameChar c) : '\n' ∉ upperS k := by
  intro hmem
  obtain ⟨c0, hc0, he⟩ := List.mem_map.mp hmem
  have hn := nameChar_not_special _ (nameChar_upper c0 (h c0 hc0))
  exact hn.2.2.2.2.1 (by rw [he]; decide)

theorem scalarOK_isFlatVal (v : FVal) (h : scalarOK v) : isFlatVal v := by
  cases v <;> simp_all [scalarOK, isFlatVal]

/-- C1: for every flat compound of lossless scalar fields (booleans, signed
and unsigned integers across the native 64-bit width, non-empty strings
without internal double quotes or line breaks), with well-formed field names
that are pairwise distinct case-insensitively, decoding the text produced by
encoding the compound yields the original compound:
`decode(encode(v)) == v`. -/
theorem claim_C1_round_trip (fs : List (Str × FVal))
    (hname : ∀ f ∈ fs, goodName f.1)
    (hnd : (fs.map (fun f => lowerS f.1)).Nodup)
    (hval : ∀ f ∈ fs, scalarOK f.2) :
    (to_string_model none (.vMap (toSFields (fs.map (fun f => (f.1, toSValue f.2)))))).bind
      (from_str_typed_model (fs.map (fun f => (f.1, shapeOf f.2))))
      = .ok fs := by
  have hflat : ∀ f ∈ fs, isFlatVal f.2 := fun f hf => scalarOK_isFlatVal f.2 (hval f hf)
  have hb : upperS ((none : Option Str).getD []) = ([] : Str) := rfl
  have hforb : ∀ f ∈ fs, keyForbidden (upperS ((none : Option Str).getD []) ++ upperS f.1) = false := by
    intro f hf
    rw [hb]
    simpa using keyForbidden_upper_name f.1 (hname f hf).2
  rw [to_string_flat none fs hforb hflat, hb]
  have hparse := parse_of_rows (rowsOf [] fs)
    (by
      intro r hr
      simp only [rowsOf, List.mem_map] at hr
      obtain ⟨f, hf, rfl⟩ := hr
      constructor
      · simpa using upper_name_no_eq f.1 (hname f hf).2
      · simpa using upper_name_no_nl f.1 (hname f hf).2)
    (by
      intro r hr
      simp only [rowsOf, List.mem_map] at hr
      obtain ⟨f, hf, rfl⟩ := hr
      intro hmem
      exact scalarText_no_nl f.2 (hval f hf) '\n' hmem rfl)
  have hmap : (((rowsOf [] fs).map
        (fun r => (r.1, processValue r.2))).map (fun p => (lowerS p.1, p.2)))
      = fs.map (fun f => (lowerS f.1, processValue (scalarText f.2))) := by
    simp only [rowsOf, List.map_map]
    apply List.map_congr_left
    intro f _
    simp [Function.comp, lowerS_upperS]
  show Except.bind _ _ = _
  simp only [Except.bind]
  rw [from_str_typed_model, hparse]
  show decodeFields
      (List.map (fun p => (lowerS p.1, p.2))
        (List.map (fun r => (r.1, processValue r.2)) (rowsOf [] fs)))
      (List.map (fun f => (f.1, shapeOf f.2)) fs) = Except.ok fs
  rw [hmap]
  exact decodeFields_flat fs fs (fun f hf => hf) hnd hval

/-- Witness for C1 at a concrete mixed-scalar compound. -/
theorem claim_C1_round_trip_witness :
    (to_string_model none (.vMap (toSFields
        (([("hello".data, FVal.sV "world".data), ("n".data, FVal.iV (-5)),
           ("b".data, FVal.bV true), ("u".data, FVal.nV 18446744073709551615)]).map
          (fun f => (f.1, toSValue f.2))))) ).bind
      (from_str_typed_model
        (([("hello".data, FVal.sV "world".data), ("n".data, FVal.iV (-5)),
           ("b".data, FVal.bV true), ("u".data, FVal.nV 18446744073709551615)]).map
          (fun f => (f.1, shapeOf f.2))))
      = .ok [("hello".data, FVal.sV "world".data), ("n".data, FVal.iV (-5)),
             ("b".data, FVal.bV true), ("u".data, FVal.nV 18446744073709551615)] :=
  claim_C1_round_trip _ (by decide) (by decide) (by decide)

/-! ## Sequence-mode lemmas -/

theorem serVal_in_seq (v : SValue) (s : Serializer) (hq : s.sequence = true)
    (hk : s.key = false) :
    (seqStructural v = true → serVal v s = .error .UnsupportedStructureInSeq)
    ∧ (seqStructural v = false → ∃ d, serVal v s = .ok { s with output := s.output ++ d }) := by
  induction v using seqStructural.induct with
  | case1 elems =>
      refine ⟨fun _ => ?_, fun hf => absurd hf (by simp [seqStructural])⟩
      rw [serVal, if_pos hq]
  | case2 elems =>
      refine ⟨fun _ => ?_, fun hf => absurd hf (by simp [seqStructural])⟩
      rw [serVal, if_pos hq]
  | case3 fields =>
      refine ⟨fun _ => ?_, fun hf => absurd hf (by simp [seqStructural])⟩
      rw [serVal, if_pos hq]
  | case4 v' ih =>
      constructor
      · intro ht
        rw [serVal]
        exact ih.1 (by simpa [seqStructural] using ht)
      · intro hf
        rw [serVal]
        exact ih.2 (by simpa [seqStructural] using hf)
  | case5 v hne1 hne2 hne3 hne4 =>
      refine ⟨fun ht => ?_, fun _ => ?_⟩
      · exact absurd ht (by cases v <;> simp_all [seqStructural])
      · cases v with
        | vBool b => exact ⟨if b then "true".data else "false".data, by rw [serVal]⟩
        | vInt n => exact ⟨intRepr n, by rw [serVal]⟩
        | vNat n => exact ⟨natRepr n, by rw [serVal]⟩
        | vStr str =>
            refine ⟨if str.isEmpty then [] else '"' :: str ++ ['"'], ?_⟩
            rw [serVal]
            exact serStr_val str s hk
        | vNone => exact ⟨[], by rw [serVal]; simp⟩
        | vSeq elems => exact absurd (hne1 elems rfl) (by simp)
        | vTupleStruct elems => exact absurd (hne2 elems rfl) (by simp)
        | vMap fields => exact absurd (hne3 fields rfl) (by simp)
        | vSome v' => exact absurd (hne4 v' rfl) (by simp)

theorem serElems_structural (l : SList) (s : Serializer) (hq : s.sequence = true)
    (hk : s.key = false) (h : anyStructural l = true) :
    serElems l s = .error .UnsupportedStructureInSeq := by
  induction l using anyStructural.induct generalizing s with
  | case1 => exact absurd h (by simp [anyStructural])
  | case2 v rest ih =>
      rw [anyStructural, Bool.or_eq_true] at h
      rw [serElems]
      cases hv : seqStructural v with
      | true =>
          rw [(serVal_in_seq v s hq hk).1 hv]
      | false =>
          obtain ⟨d, hd⟩ := (serVal_in_seq v s hq hk).2 hv
          rw [hd]
          have hrest : anyStructural rest = true := by
            rcases h with h1 | h2
            · exact absurd h1 (by simp [hv])
            · exact h2
          exact ih _ hq hk hrest

theorem serElems_scalars (els : List FVal) (s : Serializer)
    (hk : s.key = false) (hflat : ∀ v ∈ els, isFlatVal v) :
    serElems (toSList (els.map toSValue)) s
      = .ok { s with output := s.output ++ (els.map (fun v => scalarText v ++ [','])).flatten } := by
  induction els generalizing s with
  | nil => simp [toSList, serElems]
  | cons v els' ih =>
      rw [List.map_cons, toSList, serElems]
      rw [serVal_scalar v (hflat v (List.mem_cons_self v els')) s hk]
      show serElems (toSList (els'.map toSValue))
          { s with output := (s.output ++ scalarText v) ++ [','] } = _
      rw [ih { s with output := (s.output ++ scalarText v) ++ [','] } hk
        (fun g hg => hflat g (List.mem_cons_of_mem v hg))]
      simp [List.append_assoc]

/-- C4: encoding a sequence that contains a compound (map/struct) element, a
nested sequence (or tuple-style compound, which enters the sequence path), or
such a value wrapped in `Some`, fails with `UnsupportedStructureInSeq`, under
any namespace prefix. -/
theorem claim_C4_seq_rejection (pfxOpt : Option Str) (elems : SList)
    (h : anyStructural elems = true) :
    to_string_model pfxOpt (.vSeq elems) = .error .UnsupportedStructureInSeq := by
  unfold to_string_model
  rw [serVal]
  simp only [Serializer.init, Bool.false_eq_true, if_false]
  rw [serElems_structural elems _ rfl rfl h]

/-- Witness for C4: a sequence containing an (empty) map, and a sequence
containing a nested sequence. -/
theorem claim_C4_seq_rejection_witness :
    anyStructural (.cons (.vMap .nil) .nil) = true
    ∧ to_string_model none (.vSeq (.cons (.vMap .nil) .nil))
        = .error .UnsupportedStructureInSeq
    ∧ to_string_model none (.vSeq (.cons (.vSeq .nil) .nil))
        = .error .UnsupportedStructureInSeq :=
  ⟨by decide, claim_C4_seq_rejection none _ (by decide),
    claim_C4_seq_rejection none _ (by decide)⟩

/-- C2 counterexample: encoding the tuple struct `(1, 2)` does not fail with
`UnsupportedTupleStruct`; it succeeds and produces `1,2`. -/
theorem claim_C2_counterexample :
    to_string_model none (.vTupleStruct (.cons (.vNat 1) (.cons (.vNat 2) .nil)))
      = .ok "1,2".data
    ∧ to_string_model none (.vTupleStruct (.cons (.vNat 1) (.cons (.vNat 2) .nil)))
      ≠ .error .UnsupportedTupleStruct := by
  decide

/-- C2 (amended): a tuple-style compound is not rejected —
`serialize_tuple_struct` delegates to sequence serialization, so outside a
sequence a tuple struct of scalar elements encodes as the elements
comma-joined (the trailing separator is popped), and inside a sequence it
fails with `UnsupportedStructureInSeq` like any nested sequence; the
`UnsupportedTupleStruct` error is not produced on these paths. -/
theorem claim_C2_tuple_as_seq :
    (∀ (els : List FVal) (s : Serializer), s.sequence = false → s.key = false →
        (∀ v ∈ els, isFlatVal v) →
        serVal (.vTupleStruct (toSList (els.map toSValue))) s
          = .ok { s with
              output := (s.output ++ (els.map (fun v => scalarText v ++ [','])).flatten).dropLast,
              sequence := false })
    ∧ (∀ (els : SList) (s : Serializer), s.sequence = true →
        serVal (.vTupleStruct els) s = .error .UnsupportedStructureInSeq)
    ∧ to_string_model none (.vTupleStruct (.cons (.vNat 1) (.cons (.vNat 2) .nil)))
        = .ok "1,2".data := by
  refine ⟨?_, ?_, by decide⟩
  · intro els s hq hk hflat
    rw [serVal, if_neg (by rw [hq]; exact Bool.false_ne_true)]
    rw [serElems_scalars els { s with sequence := true } hk hflat]
  · intro els s hq
    rw [serVal, if_pos hq]

/-- C3: encoding `{a:1, b:{c:2}}` produces exactly `A=1\nB_C=2` (the nested
compound contributes no line of its own; its child appears under the extended
prefix).  But the general clause of the claim fails on two sibling compounds:
encoding `{a:{x:1}, b:{y:2}}` produces `A_X=1\nA_B_Y=2` — the child of `b`
is emitted under `A_B`, not `B`, because `prefix_before` is a single slot
that the first nested compound overwrites, so the prefix is mis-restored. -/
theorem claim_C3_nesting_eval :
    to_string_model none (.vMap (.cons "a".data (.vNat 1)
        (.cons "b".data (.vMap (.cons "c".data (.vNat 2) .nil)) .nil)))
      = .ok "A=1\nB_C=2".data
    ∧ to_string_model none
        (.vMap (.cons "a".data (.vMap (.cons "x".data (.vNat 1) .nil))
          (.cons "b".data (.vMap (.cons "y".data (.vNat 2) .nil)) .nil)))
      = .ok "A_X=1\nA_B_Y=2".data := by
  decide

/-- C6: when the fully qualified key (base prefix plus extended key path) of
a field contains a forbidden character (space, `#`, double quote, single
quote), serializing the field fails with `Syntax` already at the key step —
for every field value, so no value text is written for that key. -/
theorem claim_C6_syntax_before_value (name : Str) (v : SValue) (rest : SFields)
    (s : Serializer) (hq : s.sequence = false)
    (hbad : keyForbidden (s.basePfx ++ pfxExt s.pfx name) = true) :
    serKey name s = .error .Syntax
    ∧ serFields (.cons name v rest) s = .error .Syntax := by
  have hkey : serKey name s = .error .Syntax := by
    rw [serKey, if_neg (by rw [hq]; exact Bool.false_ne_true)]
    dsimp only
    split_ifs with hstub
    · rw [serStr_key _ _ rfl]
      simp only [hbad]
      rfl
    · rw [serStr_key _ _ rfl]
      simp only [hbad]
      rfl
  exact ⟨hkey, by rw [serFields, hkey]⟩

/-- Witness for C6: the field name `a b` (a space in the key) fails with
`Syntax` regardless of the value. -/
theorem claim_C6_syntax_before_value_witness :
    (Serializer.init none).sequence = false
    ∧ keyForbidden ((Serializer.init none).basePfx
        ++ pfxExt (Serializer.init none).pfx "a b".data) = true
    ∧ serKey "a b".data (Serializer.init none) = .error .Syntax
    ∧ serFields (.cons "a b".data (.vNat 7) .nil) (Serializer.init none)
        = .error .Syntax :=
  ⟨rfl, by decide,
    (claim_C6_syntax_before_value "a b".data (.vNat 7) .nil (Serializer.init none)
      rfl (by decide)).1,
    (claim_C6_syntax_before_value "a b".data (.vNat 7) .nil (Serializer.init none)
      rfl (by decide)).2⟩

/-- C7: encoding `{a:Some("HELLO"), b:None}` produces exactly
`A="HELLO"\nB=` — `None` renders as an empty right-hand side, identically to
the empty string — and decoding that text gives field `b` the value
`Some("")`, not `None`. -/
theorem claim_C7_option_asymmetry :
    to_string_model none (.vMap (.cons "a".data (.vSome (.vStr "HELLO".data))
        (.cons "b".data .vNone .nil)))
      = .ok "A=\"HELLO\"\nB=".data
    ∧ to_string_model none (.vMap (.cons "b".data (.vStr [])  .nil)) = .ok "B=".data
    ∧ to_string_model none (.vMap (.cons "b".data .vNone .nil)) = .ok "B=".data
    ∧ from_str_typed_model [("a".data, .fOptStr), ("b".data, .fOptStr)]
        "A=\"HELLO\"\nB=".data
      = .ok [("a".data, .oV (some "HELLO".data)), ("b".data, .oV (some [])) ] := by
  decide

/-- C9: encoding `{a:["HELLO","WORLD"], b:"control value"}` produces exactly
`A="HELLO","WORLD"\nB="control value"` (sequence elements comma-joined with
no whitespace, non-empty strings double-quoted), and decoding that text back
into the same shape reproduces the original sequence and string. -/
theorem claim_C9_sequence_round_trip :
    to_string_model none (.vMap (.cons "a".data
        (.vSeq (.cons (.vStr "HELLO".data) (.cons (.vStr "WORLD".data) .nil)))
        (.cons "b".data (.vStr "control value".data) .nil)))
      = .ok "A=\"HELLO\",\"WORLD\"\nB=\"control value\"".data
    ∧ from_str_typed_model [("a".data, .fSeqStr), ("b".data, .fStr)]
        "A=\"HELLO\",\"WORLD\"\nB=\"control value\"".data
      = .ok [("a".data, .qV ["HELLO".data, "WORLD".data]),
             ("b".data, .sV "control value".data)] := by
  decide

/-- C10: a field whose value is an empty sequence produces a line consisting
of the key alone with no `=` sign — ending a sequence unconditionally pops
one trailing output character, which for a zero-element sequence is the `=`
that followed the key. -/
theorem claim_C10_empty_seq (name : Str) (hname : goodName name) :
    to_string_model none (.vMap (.cons name (.vSeq .nil) .nil)) = .ok (upperS name)
    ∧ (∀ s : Serializer, s.sequence = false →
        serVal (.vSeq .nil) s
          = .ok { s with output := stripLB s.output.dropLast, sequence := false }) := by
  have hmech : ∀ s : Serializer, s.sequence = false →
      serVal (.vSeq .nil) s
        = .ok { s with output := stripLB s.output.dropLast, sequence := false } := by
    intro s hq
    rw [serVal, if_neg (by rw [hq]; exact Bool.false_ne_true)]
    rw [serElems]
  refine ⟨?_, hmech⟩
  have hlast : (upperS name).getLast? ≠ some '\n' := by
    rcases List.eq_nil_or_concat (upperS name) with h | ⟨xs, x, hxx⟩
    · rw [h]; simp
    · rw [hxx, List.concat_eq_append, List.getLast?_concat]
      intro hc
      have hx : x ∈ upperS name := by rw [hxx, List.concat_eq_append]; simp
      rw [Option.some.inj hc] at hx
      exact upper_name_no_nl name hname.2 hx
  have hkf : keyForbidden (([] : Str) ++ upperS name) = false := by
    simpa using keyForbidden_upper_name name hname.2
  have hinit : Serializer.init none
      = { output := [], basePfx := [], pfx := [], key := false,
          sequence := false, pfxBefore := [] } := rfl
  unfold to_string_model
  rw [hinit, serVal]
  simp only [Bool.false_eq_true, if_false]
  rw [serFields]
  have hsk := serKey_flat name
    { output := [], basePfx := [], pfx := [], key := false,
      sequence := false, pfxBefore := [] } rfl rfl (by simp)
  rw [hkf] at hsk
  simp only [Bool.false_eq_true, if_false] at hsk
  rw [hsk]
  dsimp only
  rw [hmech _ rfl]
  dsimp only
  rw [serFields]
  have hdrop : ((([] : Str) ++ (([] : Str) ++ upperS name)) ++ ['=']).dropLast
      = upperS name := by
    rw [List.dropLast_concat]
    simp
  rw [hdrop, stripLB_eq_self _ hlast]
  simp only [Bool.false_eq_true, if_false]
  rw [stripLB_append_nl, stripLB_eq_self _ hlast]

/-- Witness for C10: the field name `a`. -/
theorem claim_C10_empty_seq_witness :
    goodName "a".data
    ∧ to_string_model none (.vMap (.cons "a".data (.vSeq .nil) .nil))
        = .ok (upperS "a".data) :=
  ⟨by decide, (claim_C10_empty_seq "a".data (by decide)).1⟩

/-- C5: encoding with a namespace prefix uppercases the prefix and prepends
it to every top-level key (general flat case), so encoding `{hello:"world"}`
with prefix `APP_` yields `APP_HELLO="world"`; decoding that text with prefix
`APP_` into the untyped container keeps only matching keys, strips the
prefix, and yields `{"hello":"world"}`. -/
theorem claim_C5_prefix :
    (∀ (p : Str) (fs : List (Str × FVal)),
        (∀ f ∈ fs, keyForbidden (upperS p ++ upperS f.1) = false) →
        (∀ f ∈ fs, isFlatVal f.2) →
        to_string_model (some p) (.vMap (toSFields (fs.map (fun f => (f.1, toSValue f.2)))))
          = .ok (stripLB (((rowsOf (upperS p) fs).map lineRow).flatten)))
    ∧ to_string_model (some "APP_".data)
        (.vMap (.cons "hello".data (.vStr "world".data) .nil))
        = .ok "APP_HELLO=\"world\"".data
    ∧ prefixed_from_str_value_model "APP_".data "APP_HELLO=\"world\"".data
        = .ok [("hello".data, "world".data)] := by
  refine ⟨?_, by decide, by decide⟩
  intro p fs h1 h2
  exact to_string_flat (some p) fs h1 h2

/-- Witness for C5's general clause at the concrete prefix `APP_` and a
single string field. -/
theorem claim_C5_prefix_witness :
    to_string_model (some "APP_".data)
      (.vMap (toSFields (([("hello".data, FVal.sV "world".data)]).map
        (fun f => (f.1, toSValue f.2)))))
      = .ok (stripLB (((rowsOf (upperS "APP_".data)
          [("hello".data, FVal.sV "world".data)]).map lineRow).flatten)) :=
  claim_C5_prefix.1 "APP_".data [("hello".data, FVal.sV "world".data)]
    (by decide) (by decide)

/-! ## Parsed-pair well-formedness lemmas -/

theorem splitSep_ne_nil (sep : Char) (l : Str) : splitSep sep l ≠ [] := by
  induction l with
  | nil => simp [splitSep]
  | cons c rest ih =>
      rw [splitSep]
      split_ifs
      · simp
      · cases hs : splitSep sep rest with
        | nil => exact absurd hs ih
        | cons a as => simp

theorem splitSep_mem_no_sep (sep : Char) (input : Str) :
    ∀ l ∈ splitSep sep input, sep ∉ l := by
  induction input with
  | nil =>
      intro l hl
      rw [splitSep] at hl
      rw [List.mem_singleton.mp hl]
      simp
  | cons c rest ih =>
      intro l hl
      rw [splitSep] at hl
      split_ifs at hl with hc
      · rcases List.mem_cons.mp hl with h1 | h2
        · rw [h1]; simp
        · exact ih l h2
      · cases hs : splitSep sep rest with
        | nil => exact absurd hs (splitSep_ne_nil sep rest)
        | cons a as =>
            rw [hs] at hl
            rcases List.mem_cons.mp hl with h1 | h2
            · subst h1
              intro hmem
              rcases List.mem_cons.mp hmem with h3 | h4
              · exact hc h3.symm
              · exact ih a (hs ▸ List.mem_cons_self a as) h4
            · exact ih l (hs ▸ List.mem_cons_of_mem a h2)

theorem parsePair_wf (line : Str) (hline : '\n' ∉ line) (p : Str × Str)
    (h : parsePair line = .ok p) :
    ('=' ∉ p.1) ∧ ('\n' ∉ p.1) ∧ ('\n' ∉ p.2) ∧ ('"' ∉ p.2) := by
  rw [parsePair] at h
  cases hd : line.dropWhile (fun c => !(c == '=')) with
  | nil => rw [hd] at h; exact absurd h (by simp)
  | cons e v =>
      rw [hd] at h
      have hp : p = (line.takeWhile (fun c => !(c == '=')), processValue v) := by
        simpa using h.symm
      subst hp
      refine ⟨?_, ?_, ?_, ?_⟩
      · intro hmem
        have := List.mem_takeWhile_imp hmem
        simp at this
      · intro hmem
        exact hline ((List.takeWhile_prefix _).subset hmem)
      · intro hmem
        have hv : '\n' ∈ line := by
          have h1 : '\n' ∈ v := by
            have := List.mem_filter.mp hmem
            exact this.1
          have h2 : '\n' ∈ e :: v := List.mem_cons_of_mem e h1
          rw [← hd] at h2
          exact (List.dropWhile_suffix _).subset h2
        exact hline hv
      · intro hmem
        have := (List.mem_filter.mp hmem).2
        simp at this

theorem parsePairs_wf (lines : List Str) (hl : ∀ l ∈ lines, '\n' ∉ l) :
    ∀ pairs, parsePairs lines = .ok pairs →
      ∀ p ∈ pairs, ('=' ∉ p.1) ∧ ('\n' ∉ p.1) ∧ ('\n' ∉ p.2) ∧ ('"' ∉ p.2) := by
  induction lines with
  | nil =>
      intro pairs h
      have : pairs = [] := by simpa [parsePairs] using h.symm
      subst this
      intro p hp
      exact absurd hp (List.not_mem_nil p)
  | cons l ls ih =>
      intro pairs h
      rw [parsePairs] at h
      split_ifs at h with hemp
      · exact ih (fun g hg => hl g (List.mem_cons_of_mem l hg)) pairs h
      · cases hpp : parsePair l with
        | error e => rw [hpp] at h; exact absurd h (by simp)
        | ok p0 =>
            rw [hpp] at h
            cases hps : parsePairs ls with
            | error e => rw [hps] at h; exact absurd h (by simp)
            | ok ps0 =>
                rw [hps] at h
                have : pairs = p0 :: ps0 := by simpa using h.symm
                subst this
                intro p hp
                rcases List.mem_cons.mp hp with h1 | h2
                · subst h1
                  exact parsePair_wf l (hl l (List.mem_cons_self l ls)) p hpp
                · exact ih (fun g hg => hl g (List.mem_cons_of_mem l hg)) ps0 hps p h2

theorem parseLines_wf (input : Str) (pairs : List (Str × Str))
    (h : parseLinesModel input = .ok pairs) :
    ∀ p ∈ pairs, ('=' ∉ p.1) ∧ ('\n' ∉ p.1) ∧ ('\n' ∉ p.2) ∧ ('"' ∉ p.2) :=
  parsePairs_wf (splitSep '\n' input)
    (fun l hlmem hmem => splitSep_mem_no_sep '\n' input l hlmem hmem) pairs h

/-! ## Untyped-container lemmas -/

theorem mem_valueInsert (m : List (Str × Str)) (k v : Str) (q : Str × Str)
    (h : q ∈ valueInsert m k v) : q ∈ m ∨ q = (k, v) := by
  unfold valueInsert at h
  split_ifs at h with hany
  · obtain ⟨r, hr, he⟩ := List.mem_map.mp h
    by_cases hrk : r.1 == k
    · right; rw [← he]; simp [hrk]
    · left
      rw [← he]
      simp only [hrk, Bool.false_eq_true, if_false]
      exact hr
  · rcases List.mem_append.mp h with h1 | h2
    · left; exact h1
    · right; exact List.mem_singleton.mp h2

theorem fromIterValue_mem (pairs : List (Str × Str)) (q : Str × Str)
    (h : q ∈ fromIterValue pairs) : ∃ p ∈ pairs, q.1 = lowerS p.1 ∧ q.2 = p.2 := by
  unfold fromIterValue at h
  suffices H : ∀ (acc : List (Str × Str)),
      q ∈ pairs.foldl (fun m p => valueInsert m (lowerS p.1) p.2) acc →
      q ∈ acc ∨ ∃ p ∈ pairs, q.1 = lowerS p.1 ∧ q.2 = p.2 by
    rcases H [] h with h1 | h2
    · exact absurd h1 (List.not_mem_nil q)
    · exact h2
  clear h
  induction pairs with
  | nil => intro acc h; exact Or.inl h
  | cons p ps ih =>
      intro acc h
      rw [List.foldl_cons] at h
      rcases ih (valueInsert acc (lowerS p.1) p.2) h with h1 | h2
      · rcases mem_valueInsert acc (lowerS p.1) p.2 q h1 with h3 | h4
        · exact Or.inl h3
        · refine Or.inr ⟨p, List.mem_cons_self p ps, ?_, ?_⟩ <;> rw [h4]
      · obtain ⟨r, hr, he⟩ := h2
        exact Or.inr ⟨r, List.mem_cons_of_mem p hr, he⟩

theorem valueInsert_length (m : List (Str × Str)) (k v : Str) :
    (valueInsert m k v).length
      = if m.any (fun p => p.1 == k) then m.length else m.length + 1 := by
  unfold valueInsert
  split_ifs with hany
  · exact List.length_map m _
  · simp

theorem fromIter_len_le (pairs : List (Str × Str)) :
    ∀ acc : List (Str × Str),
      (pairs.foldl (fun m p => valueInsert m (lowerS p.1) p.2) acc).length
        ≤ acc.length + pairs.length := by
  induction pairs with
  | nil => intro acc; simp
  | cons p ps ih =>
      intro acc
      rw [List.foldl_cons]
      refine le_trans (ih (valueInsert acc (lowerS p.1) p.2)) ?_
      rw [valueInsert_length]
      split_ifs <;> simp <;> try omega

theorem fromIter_eq_of_len (pairs : List (Str × Str)) :
    ∀ acc : List (Str × Str),
      (pairs.foldl (fun m p => valueInsert m (lowerS p.1) p.2) acc).length
        = acc.length + pairs.length →
      pairs.foldl (fun m p => valueInsert m (lowerS p.1) p.2) acc
        = acc ++ pairs.map (fun p => (lowerS p.1, p.2)) := by
  induction pairs with
  | nil => intro acc _; simp
  | cons p ps ih =>
      intro acc hlen
      rw [List.foldl_cons] at hlen ⊢
      by_cases hany : acc.any (fun r => r.1 == lowerS p.1)
      · exfalso
        have h1 := fromIter_len_le ps (valueInsert acc (lowerS p.1) p.2)
        rw [valueInsert_length, if_pos hany] at h1
        rw [List.length_cons] at hlen
        omega
      · have hins : valueInsert acc (lowerS p.1) p.2 = acc ++ [(lowerS p.1, p.2)] := by
          unfold valueInsert
          rw [if_neg hany]
        have hlen2 : (ps.foldl (fun m p => valueInsert m (lowerS p.1) p.2)
            (valueInsert acc (lowerS p.1) p.2)).length
            = (valueInsert acc (lowerS p.1) p.2).length + ps.length := by
          rw [valueInsert_length, if_neg hany]
          rw [List.length_cons] at hlen
          omega
        rw [ih (valueInsert acc (lowerS p.1) p.2) hlen2, hins]
        simp

theorem map_eq_self_mem (L : List (Str × Str)) (f : Str × Str → Str × Str)
    (h : L.map f = L) : ∀ x ∈ L, f x = x := by
  induction L with
  | nil => intro x hx; exact absurd hx (List.not_mem_nil x)
  | cons a as ih =>
      rw [List.map_cons] at h
      have h1 : f a = a := (List.cons.injEq _ _ _ _ ▸ h).1
      have h2 : as.map f = as := (List.cons.injEq _ _ _ _ ▸ h).2
      intro x hx
      rcases List.mem_cons.mp hx with h3 | h4
      · rw [h3]; exact h1
      · exact ih h2 x h4

/-! ## Case-mapping preservation lemmas -/

theorem lowerS_not_mem (k : Str) (c : Char) (hc : c.toNat < 97 ∨ 122 < c.toNat)
    (h : c ∉ k) : c ∉ lowerS k := by
  intro hmem
  obtain ⟨c0, hc0, he⟩ := List.mem_map.mp hmem
  have hne : c0.toNat ≠ c.toNat := by
    intro heq
    exact h (charExt c0 c heq ▸ hc0)
  exact absurd (congrArg Char.toNat he) (charLower_ne_of c0 c.toNat hc hne)

theorem upperS_not_mem (k : Str) (c : Char) (hc : c.toNat < 65 ∨ 90 < c.toNat)
    (h : c ∉ k) : c ∉ upperS k := by
  intro hmem
  obtain ⟨c0, hc0, he⟩ := List.mem_map.mp hmem
  have hne : c0.toNat ≠ c.toNat := by
    intro heq
    exact h (charExt c0 c heq ▸ hc0)
  exact absurd (congrArg Char.toNat he) (charUpper_ne_of c0 c.toNat hc hne)

theorem scalarText_sV_no_nl (t : Str) (h : '\n' ∉ t) : '\n' ∉ scalarText (.sV t) := by
  rw [scalarText]
  split_ifs with he
  · simp
  · intro hmem
    rcases List.mem_append.mp hmem with h1 | h2
    · rcases List.mem_cons.mp h1 with h3 | h4
      · exact absurd h3 (by decide)
      · exact h h4
    · exact absurd (List.mem_singleton.mp h2) (by decide)

theorem processValue_quoted (t : Str) (h : '"' ∉ t) :
    processValue (scalarText (.sV t)) = t := by
  rw [scalarText]
  split_ifs with he
  · rw [List.isEmpty_iff.mp he]; rfl
  · unfold processValue
    rw [List.filter_append, List.filter_cons]
    simp only [beq_self_eq_true, Bool.not_true, Bool.false_eq_true, if_false]
    rw [List.filter_eq_self.mpr (fun c hc => by
      simp only [Bool.not_eq_eq_eq_not, Bool.not_true, beq_eq_false_iff_ne, ne_eq]
      intro heq
      exact h (heq ▸ hc))]
    simp

theorem serFields_flat_ok (b : Str) (fs : List (Str × FVal)) (s s' : Serializer)
    (hk : s.key = false) (hq : s.sequence = false) (hp : s.pfx = [])
    (hb : s.basePfx = b) (hout : s.output.getLast? ≠ some '=')
    (hv : ∀ f ∈ fs, isFlatVal f.2)
    (h : serFields (toSFields (fs.map (fun f => (f.1, toSValue f.2)))) s = .ok s') :
    (∀ f ∈ fs, keyForbidden (b ++ upperS f.1) = false)
    ∧ s'.output = s.output ++ ((rowsOf b fs).map lineRow).flatten := by
  induction fs generalizing s with
  | nil =>
      have hs : s' = s := by simpa [toSFields, serFields] using h.symm
      subst hs
      exact ⟨fun f hf => absurd hf (List.not_mem_nil f), by simp [rowsOf]⟩
  | cons f fs' ih =>
      rw [List.map_cons, toSFields, serFields] at h
      have hsk := serKey_flat f.1 s hq hp hout
      rw [hb] at hsk
      cases hkf : keyForbidden (b ++ upperS f.1) with
      | true =>
          rw [hkf] at hsk
          simp only [if_true] at hsk
          rw [hsk] at h
          exact absurd h (by simp)
      | false =>
          rw [hkf] at hsk
          simp only [Bool.false_eq_true, if_false] at hsk
          rw [hsk] at h
          dsimp only at h
          simp only [hq, Bool.false_eq_true, if_false] at h
          rw [serVal_scalar f.2 (hv f (List.mem_cons_self f fs')) _ rfl] at h
          dsimp only at h
          have hrec := ih { output := ((s.output ++ (b ++ upperS f.1)) ++ ['=']) ++ scalarText f.2 ++ ['\n'],
                            basePfx := b, pfx := [], key := false, sequence := false,
                            pfxBefore := [] }
            rfl rfl rfl rfl
            (by rw [List.getLast?_concat]; intro hc; exact absurd (Option.some.inj hc) (by decide))
            (fun g hg => hv g (List.mem_cons_of_mem f hg)) h
      -- assemble head + tail facts
          refine ⟨?_, ?_⟩
          · intro g hg
            rcases List.mem_cons.mp hg with h1 | h2
            · rw [h1]; exact hkf
            · exact hrec.1 g h2
          · rw [hrec.2]
            simp [rowsOf, lineRow, List.append_assoc]

/-- C8: the untyped decode path lower-cases every key (the typed path feeds
the coercion engine the same lower-cased keys by construction); consequently
a byte-identical text round trip `encode(decode(text)) == text` forces every
key of the input text to be upper snake case already (`upperS k = k`). -/
theorem claim_C8_case_normalization :
    (∀ (input : Str) (m : List (Str × Str)),
        from_str_value_model input = .ok m → ∀ q ∈ m, lowerS q.1 = q.1)
    ∧ (∀ (input out : Str) (pairs : List (Str × Str)),
        parseLinesModel input = .ok pairs →
        to_string_model none (.vMap (toSFields ((fromIterValue pairs).map
            (fun q => (q.1, toSValue (FVal.sV q.2)))))) = .ok out →
        out = input →
        ∀ p ∈ pairs, upperS p.1 = p.1) := by
  constructor
  · intro input m h q hq
    unfold from_str_value_model at h
    cases hp : parseLinesModel input with
    | error e => rw [hp] at h; exact absurd h (by simp)
    | ok ps =>
        rw [hp] at h
        have hm : m = fromIterValue ps := by simpa using h.symm
        subst hm
        obtain ⟨p, _, h1, _⟩ := fromIterValue_mem ps q hq
        rw [h1, lowerS_lowerS]
  · intro input out pairs hp henc hoi p hpmem
    have hwf := parseLines_wf input pairs hp
    set m := fromIterValue pairs with hmdef
    have hmf : ∀ q ∈ m, ('=' ∉ q.1) ∧ ('\n' ∉ q.1) ∧ ('\n' ∉ q.2) ∧ ('"' ∉ q.2) := by
      intro q hq
      obtain ⟨r, hr, h1, h2⟩ := fromIterValue_mem pairs q hq
      obtain ⟨w1, w2, w3, w4⟩ := hwf r hr
      rw [h1, h2]
      exact ⟨lowerS_not_mem r.1 '=' (by decide) w1,
             lowerS_not_mem r.1 '\n' (by decide) w2, w3, w4⟩
    have hinit : Serializer.init none
        = { output := [], basePfx := [], pfx := [], key := false,
            sequence := false, pfxBefore := [] } := rfl
    unfold to_string_model at henc
    rw [hinit, serVal] at henc
    simp only [Bool.false_eq_true, if_false] at henc
    have hmm : (m.map (fun q => (q.1, FVal.sV q.2))).map (fun f => (f.1, toSValue f.2))
        = m.map (fun q => (q.1, toSValue (FVal.sV q.2))) := by
      rw [List.map_map]
      rfl
    rw [← hmm] at henc
    cases hsf : serFields
        (toSFields ((m.map (fun q => (q.1, FVal.sV q.2))).map (fun f => (f.1, toSValue f.2))))
        { output := [], basePfx := [], pfx := [], key := false,
          sequence := false, pfxBefore := [] } with
    | error e => rw [hsf] at henc; exact absurd henc (by simp)
    | ok s1 =>
        rw [hsf] at henc
        have hout : out = stripLB s1.output := by simpa using henc.symm
        have hB := serFields_flat_ok [] (m.map (fun q => (q.1, FVal.sV q.2))) _ s1
          rfl rfl rfl rfl (by simp)
          (fun f hf => by
            obtain ⟨q, _, rfl⟩ := List.mem_map.mp hf
            simp [isFlatVal])
          hsf
        have hparse2 := parse_of_rows (rowsOf [] (m.map (fun q => (q.1, FVal.sV q.2))))
          (by
            intro r hr
            simp only [rowsOf, List.map_map, List.mem_map] at hr
            obtain ⟨q, hq, rfl⟩ := hr
            constructor
            · simpa using upperS_not_mem q.1 '=' (by decide) (hmf q hq).1
            · simpa using upperS_not_mem q.1 '\n' (by decide) (hmf q hq).2.1)
          (by
            intro r hr
            simp only [rowsOf, List.map_map, List.mem_map] at hr
            obtain ⟨q, hq, rfl⟩ := hr
            exact scalarText_sV_no_nl q.2 (hmf q hq).2.2.1)
        have houtparse : parseLinesModel input
            = .ok ((rowsOf [] (m.map (fun q => (q.1, FVal.sV q.2)))).map
                (fun r => (r.1, processValue r.2))) := by
          rw [← hoi, hout, hB.2]
          simpa using hparse2
        have hpairs2 : ((rowsOf [] (m.map (fun q => (q.1, FVal.sV q.2)))).map
              (fun r => (r.1, processValue r.2)))
            = m.map (fun q => (upperS q.1, q.2)) := by
          simp only [rowsOf, List.map_map]
          apply List.map_congr_left
          intro q hq
          simp only [Function.comp]
          rw [processValue_quoted q.2 (hmf q hq).2.2.2]
          simp
        have hpe : pairs = m.map (fun q => (upperS q.1, q.2)) := by
          have := hp.symm.trans houtparse
          rw [hpairs2] at this
          exact Except.ok.inj this
        have hlen : m.length = pairs.length := by rw [hpe, List.length_map]
        have hmfold : m = pairs.map (fun q => (lowerS q.1, q.2)) := by
      -- the fold collapses nothing, because its result has full length
          have hfl := fromIter_eq_of_len pairs []
            (by
              show (pairs.foldl (fun mm q => valueInsert mm (lowerS q.1) q.2) []).length
                = ([] : List (Str × Str)).length + pairs.length
              have : (pairs.foldl (fun mm q => valueInsert mm (lowerS q.1) q.2) []) = m := by
                rw [hmdef]; rfl
              rw [this, hlen]
              simp)
          rw [hmdef]
          show pairs.foldl (fun mm q => valueInsert mm (lowerS q.1) q.2) []
            = pairs.map (fun q => (lowerS q.1, q.2))
          rw [hfl]
          simp
        have hfix : pairs.map (fun q => (upperS (lowerS q.1), q.2)) = pairs := by
          calc pairs.map (fun q => (upperS (lowerS q.1), q.2))
              = (pairs.map (fun q => (lowerS q.1, q.2))).map
                  (fun q => (upperS q.1, q.2)) := by
                rw [List.map_map]
                rfl
            _ = m.map (fun q => (upperS q.1, q.2)) := by rw [← hmfold]
            _ = pairs := hpe.symm
        have hpoint := map_eq_self_mem pairs _ hfix p hpmem
        have h1 : upperS (lowerS p.1) = p.1 := congrArg Prod.fst hpoint
        calc upperS p.1 = upperS (upperS (lowerS p.1)) := by rw [h1]
          _ = upperS (lowerS p.1) := upperS_upperS _
          _ = p.1 := h1

/-- Witness for C2's amended claim: the tuple struct `(1, 2)` from the
initial serializer state. -/
theorem claim_C2_tuple_as_seq_witness :
    serVal (.vTupleStruct (toSList (([FVal.nV 1, FVal.nV 2]).map toSValue)))
        (Serializer.init none)
      = .ok { Serializer.init none with
          output := ((Serializer.init none).output
            ++ (([FVal.nV 1, FVal.nV 2]).map (fun v => scalarText v ++ [','])).flatten).dropLast,
          sequence := false } :=
  claim_C2_tuple_as_seq.1 [FVal.nV 1, FVal.nV 2] (Serializer.init none)
    rfl rfl (by decide)

/-- Witness for C8: decoding `HELLO=world` lower-cases the key, and the
byte-identical fixpoint `A="1"` has an upper-case key. -/
theorem claim_C8_case_normalization_witness :
    (from_str_value_model "HELLO=world".data = .ok [("hello".data, "world".data)]
      ∧ ∀ q ∈ [("hello".data, "world".data)], lowerS q.1 = q.1)
    ∧ (parseLinesModel "A=\"1\"".data = .ok [("A".data, "1".data)]
      ∧ ∀ p ∈ [("A".data, "1".data)], upperS p.1 = p.1) :=
  ⟨⟨by decide, claim_C8_case_normalization.1 "HELLO=world".data _ (by decide)⟩,
   ⟨by decide, claim_C8_case_normalization.2 "A=\"1\"".data "A=\"1\"".data
      [("A".data, "1".data)] (by decide) (by decide) rfl⟩⟩
